import Mathlib

/-!
Verification of the small_transcriptor repository's core pipeline against its
natural-language specification.

The development shallowly embeds the algorithmic core of the two Python
transcriptor variants (`src/transcriptor.py` and
`src/transcriptor/transcriptor.py`):

* the chunker `split_audio_into_chunks` (the while-loop over rational time,
  with the temporary chunk file paths abstracted away: a chunk is its
  `(start, end)` interval);
* the per-chunk timestamp reconciliation in `transcribe_chunk` (the Vosk
  recognizer call is abstracted to an `Except`-valued outcome: `.ok results`
  for a successful recognition, `.error e` for any raised exception, which the
  source catches and turns into an empty list);
* the multithreaded reassembly loop of `transcribe_audio` (the
  `as_completed` arrival order is made explicit as a `completionOrder`
  parameter, a permutation of the chunk indices);
* the two speaker-segmentation strategies `simple_speaker_segmentation`
  (pause-based) and `advanced_speaker_segmentation` (diarization lookup);
* the utterance grouper `group_segments_by_speaker`, both as a pure function
  and as a store-passing program making the Python dict copies and in-place
  mutations explicit, to settle the frame claim;
* the error flow of the public entry point `transcribe_mp3_with_speakers`
  (decode and recognition outcomes become `Except` parameters; the Python
  `try/except ...: return None` blocks become total functions into
  `Except String (Option _)`, where an `.error` result would model an
  exception escaping to the caller).

Durations and timestamps are modelled as exact rationals (`ℚ`); Python float
rounding is not modelled. The Python dict key `end` is rendered as the field
name `stop` (`end` is a Lean keyword); the dict key `word` and `text` keep
their names.
-/

namespace Transcriptor

/-- One recognized word of a Vosk result: dict `{word, start, end}` with
chunk-local (later global) start and end times. -/
structure WordInfo where
  start : ℚ
  stop : ℚ
  word : String
deriving DecidableEq

/-- One Vosk partial/final result dict. The source only looks at the optional
`result` key, a list of word dicts; `result := none` models a dict without
that key (e.g. an empty final result). -/
structure VoskResult where
  result : Option (List WordInfo)
deriving DecidableEq

/-- A labeled word segment / merged utterance: dict
`{start, end, text, speaker}` as built by the speaker segmenters and the
grouper. -/
structure Segment where
  start : ℚ
  stop : ℚ
  text : String
  speaker : String
deriving DecidableEq, Inhabited

/-- Python `f"SPEAKER_{k:02d}"`: the label is `SPEAKER_` followed by the
zero-padded-to-two-digits decimal value of the counter. -/
def speakerLabel (k : Nat) : String :=
  "SPEAKER_" ++ (if k < 10 then "0" ++ toString k else toString k)

/-- Inner loop of `simple_speaker_segmentation` over the word dicts of one
Vosk result (source: `src/transcriptor/transcriptor.py` lines 270-289 and
`src/transcriptor.py` lines 181-199). State: the current speaker counter and
`last_end_time`; both are returned so the outer loop can thread them through
the remaining results. The speaker-change test `start - last_end_time >
threshold` and the modular increment happen before the segment is emitted,
exactly as in the source. -/
def segWords (words : List WordInfo) (num_speakers : Nat) (threshold : ℚ)
    (current_speaker : Nat) (last_end_time : ℚ) : List Segment × Nat × ℚ :=
  match words with
  | [] => ([], current_speaker, last_end_time)
  | w :: ws =>
    let cur := if w.start - last_end_time > threshold
      then (current_speaker + 1) % num_speakers else current_speaker
    let out := segWords ws num_speakers threshold cur w.stop
    (⟨w.start, w.stop, w.word, speakerLabel cur⟩ :: out.1, out.2)

/-- Outer loop of `simple_speaker_segmentation` over the transcription
results: a result dict without a `result` key is skipped (`continue`), the
speaker/last-end state persists across results. -/
def segResults (results : List VoskResult) (num_speakers : Nat) (threshold : ℚ)
    (current_speaker : Nat) (last_end_time : ℚ) : List Segment × Nat × ℚ :=
  match results with
  | [] => ([], current_speaker, last_end_time)
  | r :: rs =>
    match r.result with
    | none => segResults rs num_speakers threshold current_speaker last_end_time
    | some ws =>
      let out := segWords ws num_speakers threshold current_speaker last_end_time
      let rest := segResults rs num_speakers threshold out.2.1 out.2.2
      (out.1 ++ rest.1, rest.2)

/-- Pause-based speaker segmentation. The source hardcodes the pause
threshold (`1.5` in `src/transcriptor.py`, `2.0` as
`speaker_change_threshold` in `src/transcriptor/transcriptor.py`); it is a
parameter here so both variants are covered by one definition. Initial state:
`current_speaker = 0`, `last_end_time = 0`. -/
def simple_speaker_segmentation (transcription_results : List VoskResult)
    (num_speakers : Nat) (threshold : ℚ) : List Segment :=
  (segResults transcription_results num_speakers threshold 0 0).1

/-- Loop of `group_segments_by_speaker` (source:
`src/transcriptor/transcriptor.py` lines 303-322, identically
`src/transcriptor.py` lines 209-226). `current_group` is the open utterance
(`none` before the first segment). A segment merges into the open utterance
exactly when the speakers are equal and `segment.start - current_group.stop <
time_threshold`; otherwise the open utterance is emitted and the segment
opens a new one (`segment.copy()` is the identity on the pure value). The
final open utterance is emitted at the end. -/
def groupLoop (current_group : Option Segment) (segments : List Segment)
    (time_threshold : ℚ) : List Segment :=
  match segments with
  | [] =>
    match current_group with
    | none => []
    | some g => [g]
  | s :: rest =>
    match current_group with
    | none => groupLoop (some s) rest time_threshold
    | some g =>
      if g.speaker = s.speaker ∧ s.start - g.stop < time_threshold then
        groupLoop (some ⟨g.start, s.stop, g.text ++ " " ++ s.text, g.speaker⟩)
          rest time_threshold
      else
        g :: groupLoop (some s) rest time_threshold

/-- Utterance grouper `group_segments_by_speaker`. The default
`time_threshold` is `2.0` in `src/transcriptor.py` and `3.0` in
`src/transcriptor/transcriptor.py`; the early `return []` for an empty
segment list of the latter variant coincides with the loop's base case. -/
def group_segments_by_speaker (segments : List Segment) (time_threshold : ℚ) :
    List Segment :=
  groupLoop none segments time_threshold

/-- Space-joined concatenation of a list of texts (used only to state text
preservation of the grouper: each input text appears exactly once, in order,
in the joined output texts). -/
def joinTexts : List String → String
  | [] => ""
  | [t] => t
  | t :: rest => t ++ " " ++ joinTexts rest

/-- Word-timestamp shift of `transcribe_chunk` (source:
`src/transcriptor/transcriptor.py` lines 166-170): every word of every
result dict that has a `result` key gets both its start and its end moved by
the chunk's start offset. -/
def adjustResult (chunk_start : ℚ) (r : VoskResult) : VoskResult :=
  ⟨r.result.map (List.map fun w => ⟨w.start + chunk_start, w.stop + chunk_start, w.word⟩)⟩

/-- Per-chunk transcription `transcribe_chunk` (source:
`src/transcriptor/transcriptor.py` lines 130-180). The Vosk recognition of
the chunk's audio file is abstracted to `outcome`: `.ok results` when the
`try` body reaches the adjustment loop with the accumulated result list,
`.error e` when any exception was raised inside the `try` body. The source
catches every exception and returns the empty list, so the embedding is a
total function; the temp-file cleanup in `finally` is I/O and not modelled. -/
def transcribe_chunk (outcome : Except String (List VoskResult))
    (chunk_start : ℚ) : List VoskResult :=
  match outcome with
  | Except.ok results => results.map (adjustResult chunk_start)
  | Except.error _ => []

instance {ε α : Type} [DecidableEq ε] [DecidableEq α] :
    DecidableEq (Except ε α) := fun x y =>
  match x, y with
  | Except.ok a, Except.ok b =>
    if h : a = b then isTrue (by rw [h])
    else isFalse (by intro hh; cases hh; exact h rfl)
  | Except.ok _, Except.error _ => isFalse (by intro hh; cases hh)
  | Except.error _, Except.ok _ => isFalse (by intro hh; cases hh)
  | Except.error e, Except.error f =>
    if h : e = f then isTrue (by rw [h])
    else isFalse (by intro hh; cases hh; exact h rfl)

/-- One scheduled chunk as submitted to the pool: its recognition outcome
and its start offset (the chunk's end offset is only used for logging). -/
structure ChunkJob where
  outcome : Except String (List VoskResult)
  start : ℚ
deriving DecidableEq

/-- Result list of the future for chunk index `i` (`[]` for an out-of-range
index, which never occurs for a completion order over the submitted
chunks). -/
def chunkTokens (chunks : List ChunkJob) (i : Nat) : List VoskResult :=
  match chunks[i]? with
  | some c => transcribe_chunk c.outcome c.start
  | none => []

/-- Multithreaded reassembly loop of `transcribe_audio` (source:
`src/transcriptor/transcriptor.py` lines 204-224). Each future computes
`transcribe_chunk`; `as_completed` yields the futures in completion order,
and the loop runs `all_results.extend(chunk_results)` in exactly that order.
`completionOrder` makes that nondeterministic arrival order explicit: it is
a permutation of the chunk indices, and the returned stream is the
concatenation of the per-chunk results in that order. -/
def transcribe_audio (chunks : List ChunkJob) (completionOrder : List Nat) :
    List VoskResult :=
  completionOrder.flatMap (chunkTokens chunks)

/-- Strictly sequential processing of the chunks in chunk-index order: the
reference stream the spec's ordering invariant compares against. -/
def transcribe_sequential (chunks : List ChunkJob) : List VoskResult :=
  chunks.flatMap fun c => transcribe_chunk c.outcome c.start

/-- Indexed word lookup used to state reconciliation: the `j`-th word of the
`i`-th result dict of a transcription result list (`none` when the result
dict is absent, has no `result` key, or the index is out of range). -/
def getWord (rs : List VoskResult) (i j : Nat) : Option WordInfo :=
  rs[i]?.bind fun r => (r.result.getD [])[j]?

/-- Chunking loop of `split_audio_into_chunks` (source:
`src/transcriptor/transcriptor.py` lines 109-126), written with explicit
fuel: from `chunk_start`, while `chunk_start < total_duration`, emit the
interval from `chunk_start` to `min (chunk_start + chunk_duration)
total_duration` and continue from that interval's end. The temporary chunk
files are I/O and not modelled; a chunk is its interval. -/
def splitLoop : Nat → ℚ → ℚ → ℚ → List (ℚ × ℚ)
  | 0, _, _, _ => []
  | fuel + 1, chunk_start, total_duration, chunk_duration =>
    if chunk_start < total_duration then
      (chunk_start, min (chunk_start + chunk_duration) total_duration) ::
        splitLoop fuel (min (chunk_start + chunk_duration) total_duration)
          total_duration chunk_duration
    else []

/-- Chunker `split_audio_into_chunks`: run the loop from `chunk_start = 0`.
The fuel `⌈T/d⌉ + 1` dominates the loop's iteration count (proved in
`splitLoop_spec`), so the fueled loop equals the source's while loop. -/
def split_audio_into_chunks (total_duration chunk_duration : ℚ) :
    List (ℚ × ℚ) :=
  splitLoop ((⌈total_duration / chunk_duration⌉).toNat + 1) 0 total_duration
    chunk_duration

/-- One diarization turn `{speakerLabel, turnStart, turnEnd}` as yielded by
`diarization.itertracks(yield_label=True)` in
`advanced_speaker_segmentation`. -/
structure Turn where
  start : ℚ
  stop : ℚ
  label : String
deriving DecidableEq

/-- Inner turn search of `advanced_speaker_segmentation` (source:
`src/transcriptor.py` lines 152-157): starting from the default
`SPEAKER_00`, scan the turns in order and take the label of the first turn
with `turn.start <= start <= turn.end`, breaking at the first hit. -/
def findSpeaker (turns : List Turn) (t : ℚ) : String :=
  match turns with
  | [] => "SPEAKER_00"
  | turn :: rest =>
    if turn.start ≤ t ∧ t ≤ turn.stop then turn.label else findSpeaker rest t

/-- Diarization-based segmentation `advanced_speaker_segmentation` (source:
`src/transcriptor.py` lines 129-170), given a successfully computed
diarization: every word of every result dict with a `result` key becomes a
segment labeled by the first matching turn. The pipeline loading and the
fallback to the pause-based strategy on errors are outside this claim's
scope. -/
def advanced_speaker_segmentation (diarization : List Turn)
    (transcription_results : List VoskResult) : List Segment :=
  transcription_results.flatMap fun r =>
    match r.result with
    | none => []
    | some ws =>
      ws.map fun w => ⟨w.start, w.stop, w.word, findSpeaker diarization w.start⟩

/-- All words of a transcription result list in order, skipping result dicts
without a `result` key. -/
def flattenWords (transcription_results : List VoskResult) : List WordInfo :=
  transcription_results.flatMap fun r => r.result.getD []

/-- Modelled from the spec sentence for C8 only, as the comparison point of a
refinement: the label of the first turn (in list order, via `List.find?`)
whose closed interval contains `t`, and the sentinel `SPEAKER_00` when no
turn contains it. -/
def firstMatchingTurnLabel (turns : List Turn) (t : ℚ) : String :=
  match turns.find? fun tr => decide (tr.start ≤ t ∧ t ≤ tr.stop) with
  | some tr => tr.label
  | none => "SPEAKER_00"

/-- Conversion step of the public entry point (source:
`src/transcriptor/transcriptor.py` lines 68-87): the pydub decode and export
are abstracted to `decodeResult`; the source catches any exception, deletes
the temp file and returns `None`, and returns the temp WAV handle on
success. -/
def convert_mp3_to_wav {α : Type} (decodeResult : Except String α) : Option α :=
  match decodeResult with
  | Except.ok a => some a
  | Except.error _ => none

/-- Public entry point `transcribe_mp3_with_speakers` (source:
`src/transcriptor/transcriptor.py` lines 352-397). `decodeResult` abstracts
the MP3 decode, `transcribeResult` the whole transcription step (including
model download/load, whose failures raise inside it). The return type
`Except String (Option _)`: an `.error` value would model an exception
propagating to the caller, `.ok none` the source's `return None` paths. The
source returns `None` when conversion fails, catches every exception of the
transcription/segmentation/grouping block and returns `None`, and otherwise
returns the grouped segments (segmentation threshold 2.0 and grouping
threshold 3.0 as in that file). -/
def transcribe_mp3_with_speakers {α : Type} (decodeResult : Except String α)
    (transcribeResult : α → Except String (List VoskResult))
    (num_speakers : Nat) : Except String (Option (List Segment)) :=
  match convert_mp3_to_wav decodeResult with
  | none => Except.ok none
  | some wav =>
    match transcribeResult wav with
    | Except.error _ => Except.ok none
    | Except.ok results =>
      Except.ok (some (group_segments_by_speaker
        (simple_speaker_segmentation results num_speakers 2) 3))

/-- Store of Python dict objects, for the frame claim about the grouper:
addresses are positions in `cells`, so object identity is explicit. -/
structure Heap where
  cells : List Segment
deriving DecidableEq

/-- Dereference an address (out-of-range reads return a default value; the
grouper never performs one on valid inputs). -/
def Heap.read (h : Heap) (a : Nat) : Segment :=
  (h.cells[a]?).getD default

/-- In-place update of the dict at address `a` (Python
`current_group['text'] += ...`, `current_group['end'] = ...`). -/
def Heap.write (h : Heap) (a : Nat) (v : Segment) : Heap :=
  ⟨h.cells.set a v⟩

/-- Python `segment.copy()`: allocate a fresh dict holding the value at no
existing address; returns the new heap and the fresh address. -/
def Heap.alloc (h : Heap) (v : Segment) : Heap × Nat :=
  (⟨h.cells ++ [v]⟩, h.cells.length)

/-- Store-passing rendering of the `group_segments_by_speaker` loop, making
the source's dict copies and in-place mutations explicit: the input is a
list of addresses of segment dicts; opening a group copies the segment dict
(`segment.copy()`), merging mutates only the open group's dict in place, and
emitted utterances are the addresses of those copies, in order. -/
def groupLoopH (h : Heap) (current_group : Option Nat) (addrs : List Nat)
    (time_threshold : ℚ) (grouped : List Nat) : Heap × List Nat :=
  match addrs with
  | [] =>
    match current_group with
    | none => (h, grouped)
    | some g => (h, grouped ++ [g])
  | s :: rest =>
    match current_group with
    | none =>
      let ha := h.alloc (h.read s)
      groupLoopH ha.1 (some ha.2) rest time_threshold grouped
    | some g =>
      if (h.read g).speaker = (h.read s).speaker ∧
          (h.read s).start - (h.read g).stop < time_threshold then
        let hw := h.write g ⟨(h.read g).start, (h.read s).stop,
          (h.read g).text ++ " " ++ (h.read s).text, (h.read g).speaker⟩
        groupLoopH hw (some g) rest time_threshold grouped
      else
        let ha := h.alloc (h.read s)
        groupLoopH ha.1 (some ha.2) rest time_threshold (grouped ++ [g])

/-- Store-passing `group_segments_by_speaker`: start with no open group and
an empty output list. Returns the final heap and the addresses of the
emitted utterance dicts. -/
def group_segments_by_speaker_heap (h : Heap) (addrs : List Nat)
    (time_threshold : ℚ) : Heap × List Nat :=
  groupLoopH h none addrs time_threshold []

end Transcriptor

namespace Transcriptor

/-- Claim C7: on the word stream hi/there/bob with pause threshold 1.5, two
speakers and merge threshold 2.0, pause-based segmentation labels the words
SPEAKER_00, SPEAKER_00, SPEAKER_01, and grouping yields exactly the two
utterances (SPEAKER_00, "hi there", 0, 0.7) and (SPEAKER_01, "bob", 3, 3.3). -/
theorem end_to_end_example_hi_there_bob :
    simple_speaker_segmentation
        [⟨some [⟨0, 3/10, "hi"⟩, ⟨2/5, 7/10, "there"⟩, ⟨3, 33/10, "bob"⟩]⟩]
        2 (3/2) =
      [⟨0, 3/10, "hi", "SPEAKER_00"⟩, ⟨2/5, 7/10, "there", "SPEAKER_00"⟩,
       ⟨3, 33/10, "bob", "SPEAKER_01"⟩] ∧
    group_segments_by_speaker
        [⟨0, 3/10, "hi", "SPEAKER_00"⟩, ⟨2/5, 7/10, "there", "SPEAKER_00"⟩,
         ⟨3, 33/10, "bob", "SPEAKER_01"⟩] 2 =
      [⟨0, 7/10, "hi there", "SPEAKER_00"⟩, ⟨3, 33/10, "bob", "SPEAKER_01"⟩] := by
  constructor
  · norm_num [simple_speaker_segmentation, segResults, segWords, speakerLabel]
    decide
  · norm_num [group_segments_by_speaker, groupLoop]
    decide

/-- Claim C2: a word with chunk-local start `x` and end `y` in a chunk with
start offset `s` appears, after `transcribe_chunk`'s reconciliation, at the
same result/word position with global start `x + s` and global end `y + s`;
nothing else about the word or the result structure changes. -/
theorem transcribe_chunk_shifts_timestamps (results : List VoskResult) (s : ℚ)
    (i j : Nat) :
    getWord (transcribe_chunk (Except.ok results) s) i j =
      (getWord results i j).map fun w => ⟨w.start + s, w.stop + s, w.word⟩ := by
  simp only [getWord, transcribe_chunk, List.getElem?_map]
  cases hr : results[i]? with
  | none => rfl
  | some r =>
    cases hres : r.result with
    | none => simp [adjustResult, hres]
    | some ws => simp [adjustResult, hres]

theorem findSpeaker_eq_firstMatch (turns : List Turn) (t : ℚ) :
    findSpeaker turns t = firstMatchingTurnLabel turns t := by
  induction turns with
  | nil => rfl
  | cons tr rest ih =>
    by_cases h : tr.start ≤ t ∧ t ≤ tr.stop
    · simp [findSpeaker, firstMatchingTurnLabel, List.find?_cons, h]
    · simp only [findSpeaker, firstMatchingTurnLabel, List.find?_cons,
        if_neg h] at ih ⊢
      have hb : (decide (tr.start ≤ t ∧ t ≤ tr.stop)) = false := by
        simpa using h
      rw [hb]
      exact ih

/-- Claim C8: the diarization-based segmenter maps the flattened word stream,
in order, to segments whose speaker is the label of the first diarization
turn whose closed interval contains the word's global start, with sentinel
SPEAKER_00 when no turn contains it; word order, times and texts are
preserved verbatim. -/
theorem advanced_segmentation_first_turn (turns : List Turn)
    (transcription_results : List VoskResult) :
    advanced_speaker_segmentation turns transcription_results =
      (flattenWords transcription_results).map fun w =>
        ⟨w.start, w.stop, w.word, firstMatchingTurnLabel turns w.start⟩ := by
  induction transcription_results with
  | nil => rfl
  | cons r rs ih =>
    cases hres : r.result with
    | none =>
      simpa [advanced_speaker_segmentation, flattenWords, hres] using ih
    | some ws =>
      simpa [advanced_speaker_segmentation, flattenWords, hres,
        findSpeaker_eq_firstMatch] using ih

/-- Claim C1 (failing-input evaluation): with two successful chunks and the
second chunk's future completing first, the multithreaded `transcribe_audio`
emits chunk 1's (time-shifted) tokens before chunk 0's, so the returned
stream differs from strictly sequential chunk-index-order processing:
completion order leaks into the output order. -/
theorem transcribe_audio_completion_order_leaks :
    transcribe_audio
        [⟨Except.ok [⟨some [⟨0, 1, "first"⟩]⟩], 0⟩,
         ⟨Except.ok [⟨some [⟨0, 1, "second"⟩]⟩], 30⟩] [1, 0] =
      [⟨some [⟨30, 31, "second"⟩]⟩, ⟨some [⟨0, 1, "first"⟩]⟩] ∧
    transcribe_audio
        [⟨Except.ok [⟨some [⟨0, 1, "first"⟩]⟩], 0⟩,
         ⟨Except.ok [⟨some [⟨0, 1, "second"⟩]⟩], 30⟩] [1, 0] ≠
      transcribe_sequential
        [⟨Except.ok [⟨some [⟨0, 1, "first"⟩]⟩], 0⟩,
         ⟨Except.ok [⟨some [⟨0, 1, "second"⟩]⟩], 30⟩] := by
  constructor
  · norm_num [transcribe_audio, chunkTokens, transcribe_chunk, adjustResult]
  · norm_num [transcribe_audio, chunkTokens, transcribe_sequential,
      transcribe_chunk, adjustResult]

/-- Claim C5 (counterexample): on an undecodable input (the decode step
raises), the public entry point returns the normal value `None` instead of
letting the failure surface to the caller with its original cause — the
fatal error is silently converted into a normal return value. -/
theorem entry_swallows_decode_error :
    transcribe_mp3_with_speakers (Except.error "DecodeError: undecodable input")
        (fun _ : Unit => Except.ok []) 4 = Except.ok none ∧
    transcribe_mp3_with_speakers (Except.error "DecodeError: undecodable input")
        (fun _ : Unit => Except.ok []) 4 ≠
      Except.error "DecodeError: undecodable input" := by
  refine ⟨rfl, ?_⟩
  intro h
  cases h

/-- Claim C5 (amended): the public entry point never lets an exception
propagate to its caller; a failing decode step, and a transcription step
that raises (e.g. an unavailable model), each make it return `None`, with
the cause only logged. -/
theorem entry_reports_fatal_failures_as_none {α : Type}
    (decodeResult : Except String α)
    (transcribeResult : α → Except String (List VoskResult))
    (num_speakers : Nat) :
    (∃ v, transcribe_mp3_with_speakers decodeResult transcribeResult
      num_speakers = Except.ok v) ∧
    (∀ c, decodeResult = Except.error c →
      transcribe_mp3_with_speakers decodeResult transcribeResult
        num_speakers = Except.ok none) ∧
    (∀ a c, decodeResult = Except.ok a → transcribeResult a = Except.error c →
      transcribe_mp3_with_speakers decodeResult transcribeResult
        num_speakers = Except.ok none) := by
  refine ⟨?_, ?_, ?_⟩
  · cases hd : decodeResult with
    | error c =>
      exact ⟨none, by simp [transcribe_mp3_with_speakers, convert_mp3_to_wav]⟩
    | ok a =>
      cases ht : transcribeResult a with
      | error c =>
        exact ⟨none,
          by simp [transcribe_mp3_with_speakers, convert_mp3_to_wav, ht]⟩
      | ok rs =>
        exact ⟨some (group_segments_by_speaker
            (simple_speaker_segmentation rs num_speakers 2) 3),
          by simp [transcribe_mp3_with_speakers, convert_mp3_to_wav, ht]⟩
  · intro c hc
    simp [transcribe_mp3_with_speakers, convert_mp3_to_wav, hc]
  · intro a c ha hc
    simp [transcribe_mp3_with_speakers, convert_mp3_to_wav, ha, hc]

/-- Witness for the amended C5 theorem at a concrete failing decode. -/
theorem entry_reports_fatal_failures_as_none_witness :
    transcribe_mp3_with_speakers (Except.error "cannot decode")
        (fun _ : Unit => Except.ok []) 4 = Except.ok none :=
  (entry_reports_fatal_failures_as_none (Except.error "cannot decode")
    (fun _ : Unit => Except.ok []) 4).2.1 "cannot decode" rfl

theorem flatMap_range_chunkTokens (l : List ChunkJob) :
    (List.range l.length).flatMap (chunkTokens l) = transcribe_sequential l := by
  induction l with
  | nil => rfl
  | cons a t ih =>
    rw [List.length_cons, List.range_succ_eq_map, transcribe_sequential,
      List.flatMap_cons, List.flatMap_map, List.flatMap_cons]
    have h0 : chunkTokens (a :: t) 0 = transcribe_chunk a.outcome a.start := by
      simp [chunkTokens]
    have hsucc : (fun i => chunkTokens (a :: t) i.succ) = chunkTokens t := by
      funext i
      simp [chunkTokens, List.getElem?_cons_succ]
    rw [h0, hsucc, ih, transcribe_sequential]

theorem sequential_skips_failed_chunks (chunks : List ChunkJob) :
    transcribe_sequential chunks =
      transcribe_sequential (chunks.filter fun c => c.outcome.toOption.isSome) := by
  induction chunks with
  | nil => rfl
  | cons c t ih =>
    unfold transcribe_sequential at ih ⊢
    cases hc : c.outcome with
    | ok rs =>
      rw [List.filter_cons_of_pos (by simp [hc, Except.toOption]),
        List.flatMap_cons, List.flatMap_cons, ih]
    | error e =>
      rw [List.filter_cons_of_neg (by simp [hc, Except.toOption]),
        List.flatMap_cons, hc]
      simpa [transcribe_chunk] using ih

/-- Claim C6: a chunk whose transcription fails contributes the empty token
list and the per-chunk operation is total (no exception escapes it, modelled
by `transcribe_chunk` turning every `.error` outcome into `[]`); for any
completion order that is a permutation of the chunk indices, the job's
returned stream is a permutation of the sequential stream, which itself
consists exactly of the tokens of the successful chunks. -/
theorem failed_chunk_contributes_nothing (chunks : List ChunkJob)
    (completionOrder : List Nat)
    (hperm : completionOrder.Perm (List.range chunks.length)) :
    (∀ e s, transcribe_chunk (Except.error e) s = []) ∧
    (transcribe_audio chunks completionOrder).Perm
      (transcribe_sequential chunks) ∧
    transcribe_sequential chunks =
      transcribe_sequential (chunks.filter fun c => c.outcome.toOption.isSome) := by
  refine ⟨fun e s => rfl, ?_, sequential_skips_failed_chunks chunks⟩
  have h1 := hperm.flatMap_right (chunkTokens chunks)
  rw [flatMap_range_chunkTokens chunks] at h1
  exact h1

/-- Witness for C6: two chunks, the second failing, with the failing chunk's
future completing first. -/
theorem failed_chunk_contributes_nothing_witness :
    ([1, 0].Perm (List.range
      ([⟨Except.ok [⟨some [⟨0, 1, "a"⟩]⟩], 0⟩,
        ⟨Except.error "ChunkTranscriptionError", 30⟩] : List ChunkJob).length)) ∧
    ((∀ e s, transcribe_chunk (Except.error e) s = []) ∧
     (transcribe_audio
        [⟨Except.ok [⟨some [⟨0, 1, "a"⟩]⟩], 0⟩,
         ⟨Except.error "ChunkTranscriptionError", 30⟩] [1, 0]).Perm
       (transcribe_sequential
        [⟨Except.ok [⟨some [⟨0, 1, "a"⟩]⟩], 0⟩,
         ⟨Except.error "ChunkTranscriptionError", 30⟩]) ∧
     transcribe_sequential
        [⟨Except.ok [⟨some [⟨0, 1, "a"⟩]⟩], 0⟩,
         ⟨Except.error "ChunkTranscriptionError", 30⟩] =
       transcribe_sequential
        (([⟨Except.ok [⟨some [⟨0, 1, "a"⟩]⟩], 0⟩,
           ⟨Except.error "ChunkTranscriptionError", 30⟩] : List ChunkJob).filter
          fun c => c.outcome.toOption.isSome)) :=
  ⟨by decide, failed_chunk_contributes_nothing _ _ (by decide)⟩

theorem groupLoop_ne_nil (segments : List Segment) (g : Segment) (θ : ℚ) :
    groupLoop (some g) segments θ ≠ [] := by
  induction segments generalizing g with
  | nil => simp [groupLoop]
  | cons s rest ih =>
    rw [groupLoop]
    split
    · exact ih _
    · simp

theorem joinTexts_cons (a : String) (l : List String) (h : l ≠ []) :
    joinTexts (a :: l) = a ++ " " ++ joinTexts l := by
  cases l with
  | nil => exact absurd rfl h
  | cons b t => rfl

theorem joinTexts_head_append (a b : String) (l : List String) :
    joinTexts ((a ++ " " ++ b) :: l) = a ++ " " ++ joinTexts (b :: l) := by
  cases l with
  | nil => rfl
  | cons c t =>
    rw [joinTexts_cons (a ++ " " ++ b) (c :: t) (by simp),
      joinTexts_cons b (c :: t) (by simp)]
    simp [String.append_assoc]

theorem groupLoop_joinTexts (segments : List Segment) (g : Segment) (θ : ℚ) :
    joinTexts ((groupLoop (some g) segments θ).map Segment.text) =
      joinTexts (g.text :: segments.map Segment.text) := by
  induction segments generalizing g with
  | nil => rfl
  | cons s rest ih =>
    rw [groupLoop]
    split
    · rw [ih]
      simp only [List.map_cons]
      exact joinTexts_head_append g.text s.text (rest.map Segment.text)
    · rw [List.map_cons,
        joinTexts_cons _ _ (by
          simpa using groupLoop_ne_nil rest s θ),
        ih, List.map_cons]
      rw [joinTexts_cons g.text (s.text :: rest.map Segment.text) (by simp)]

theorem groupLoop_length (segments : List Segment) (g : Segment) (θ : ℚ) :
    (groupLoop (some g) segments θ).length ≤ segments.length + 1 := by
  induction segments generalizing g with
  | nil => simp [groupLoop]
  | cons s rest ih =>
    rw [groupLoop]
    split
    · exact le_trans (ih _) (by simp)
    · simpa using ih s

/-- Claim C4: the grouper merges two consecutive words into one utterance
exactly when they share a speaker and the gap from the open utterance's end
to the next word's start is strictly below the merge threshold (a gap of at
least the threshold, or a differing speaker, starts a new utterance); and on
every chronologically ordered input, the space-joined texts of the output
utterances are exactly the space-joined input texts (each input text appears
exactly once, in order), so there are at most as many utterances as words. -/
theorem grouping_merges_iff_close_and_same_speaker (θ : ℚ) :
    (∀ w1 w2 : Segment,
      group_segments_by_speaker [w1, w2] θ =
        if w1.speaker = w2.speaker ∧ w2.start - w1.stop < θ then
          [⟨w1.start, w2.stop, w1.text ++ " " ++ w2.text, w1.speaker⟩]
        else [w1, w2]) ∧
    (∀ segments : List Segment,
      List.Chain' (fun a b => a.start ≤ b.start) segments →
        joinTexts ((group_segments_by_speaker segments θ).map Segment.text) =
          joinTexts (segments.map Segment.text) ∧
        (group_segments_by_speaker segments θ).length ≤ segments.length) := by
  constructor
  · intro w1 w2
    by_cases h : w1.speaker = w2.speaker ∧ w2.start - w1.stop < θ
    · simp [group_segments_by_speaker, groupLoop, h]
    · simp [group_segments_by_speaker, groupLoop, h]
  · intro segments _
    cases segments with
    | nil => exact ⟨rfl, by simp [group_segments_by_speaker, groupLoop]⟩
    | cons s rest =>
      constructor
      · rw [group_segments_by_speaker, groupLoop, groupLoop_joinTexts,
          List.map_cons]
      · rw [group_segments_by_speaker, groupLoop]
        simpa using groupLoop_length rest s θ

/-- Witness for C4 on a concrete chronologically ordered three-word input. -/
theorem grouping_merges_iff_witness :
    List.Chain' (fun a b => a.start ≤ b.start)
      ([⟨0, 1, "hi", "A"⟩, ⟨1, 2, "there", "A"⟩, ⟨9, 10, "bob", "B"⟩] :
        List Segment) ∧
    (joinTexts ((group_segments_by_speaker
        [⟨0, 1, "hi", "A"⟩, ⟨1, 2, "there", "A"⟩, ⟨9, 10, "bob", "B"⟩]
        3).map Segment.text) =
      joinTexts (([⟨0, 1, "hi", "A"⟩, ⟨1, 2, "there", "A"⟩,
        ⟨9, 10, "bob", "B"⟩] : List Segment).map Segment.text) ∧
     (group_segments_by_speaker
        [⟨0, 1, "hi", "A"⟩, ⟨1, 2, "there", "A"⟩, ⟨9, 10, "bob", "B"⟩]
        3).length ≤
       ([⟨0, 1, "hi", "A"⟩, ⟨1, 2, "there", "A"⟩, ⟨9, 10, "bob", "B"⟩] :
         List Segment).length) :=
  ⟨by norm_num, (grouping_merges_iff_close_and_same_speaker 3).2
    [⟨0, 1, "hi", "A"⟩, ⟨1, 2, "there", "A"⟩, ⟨9, 10, "bob", "B"⟩]
    (by norm_num)⟩

theorem segWords_speakers (words : List WordInfo) (n : Nat) (θ : ℚ) :
    ∀ cur lastEnd, cur < n →
      (∀ seg ∈ (segWords words n θ cur lastEnd).1,
        ∃ k, k < n ∧ seg.speaker = speakerLabel k) ∧
      (segWords words n θ cur lastEnd).2.1 < n := by
  induction words with
  | nil =>
    intro cur lastEnd hcur
    exact ⟨by simp [segWords], by simpa [segWords] using hcur⟩
  | cons w ws ih =>
    intro cur lastEnd hcur
    have hn : 0 < n := Nat.lt_of_le_of_lt (Nat.zero_le cur) hcur
    have hcur' : (if w.start - lastEnd > θ then (cur + 1) % n else cur) < n := by
      split
      · exact Nat.mod_lt _ hn
      · exact hcur
    obtain ⟨h1, h2⟩ := ih _ w.stop hcur'
    refine ⟨?_, by simpa only [segWords] using h2⟩
    intro seg hseg
    simp only [segWords] at hseg
    rcases List.mem_cons.mp hseg with h | h
    · exact ⟨_, hcur', by rw [h]⟩
    · exact h1 seg h

theorem segResults_speakers (results : List VoskResult) (n : Nat) (θ : ℚ) :
    ∀ cur lastEnd, cur < n →
      (∀ seg ∈ (segResults results n θ cur lastEnd).1,
        ∃ k, k < n ∧ seg.speaker = speakerLabel k) ∧
      (segResults results n θ cur lastEnd).2.1 < n := by
  induction results with
  | nil =>
    intro cur lastEnd hcur
    exact ⟨by simp [segResults], by simpa [segResults] using hcur⟩
  | cons r rs ih =>
    intro cur lastEnd hcur
    cases hres : r.result with
    | none => simpa only [segResults, hres] using ih cur lastEnd hcur
    | some ws =>
      obtain ⟨hw1, hw2⟩ := segWords_speakers ws n θ cur lastEnd hcur
      obtain ⟨hr1, hr2⟩ := ih _ _ hw2
      refine ⟨?_, by simpa only [segResults, hres] using hr2⟩
      intro seg hseg
      simp only [segResults, hres] at hseg
      rcases List.mem_append.mp hseg with h | h
      · exact hw1 seg h
      · exact hr1 seg h

/-- Claim C10: with at least one speaker, every segment emitted by
pause-based segmentation carries a label SPEAKER_k with k strictly below
`num_speakers` (the counter stays below `num_speakers` after every modular
increment), and with a single speaker every label is SPEAKER_00. -/
theorem pause_segmentation_labels_bounded (results : List VoskResult)
    (n : Nat) (θ : ℚ) (hn : 1 ≤ n) :
    (∀ seg ∈ simple_speaker_segmentation results n θ,
      ∃ k, k < n ∧ seg.speaker = speakerLabel k) ∧
    (n = 1 → ∀ seg ∈ simple_speaker_segmentation results n θ,
      seg.speaker = "SPEAKER_00") := by
  have h := (segResults_speakers results n θ 0 0 hn).1
  refine ⟨h, ?_⟩
  intro h1 seg hseg
  obtain ⟨k, hk, hlab⟩ := h seg hseg
  have hk0 : k = 0 := Nat.lt_one_iff.mp (h1 ▸ hk)
  rw [hlab, hk0]
  rfl

/-- Witness for C10 at two speakers on a two-word stream with a long pause. -/
theorem pause_segmentation_labels_bounded_witness :
    1 ≤ 2 ∧
    ((∀ seg ∈ simple_speaker_segmentation [⟨some [⟨0, 1, "a"⟩, ⟨5, 6, "b"⟩]⟩] 2 2,
        ∃ k, k < 2 ∧ seg.speaker = speakerLabel k) ∧
     (2 = 1 → ∀ seg ∈ simple_speaker_segmentation
        [⟨some [⟨0, 1, "a"⟩, ⟨5, 6, "b"⟩]⟩] 2 2,
        seg.speaker = "SPEAKER_00")) :=
  ⟨by decide, pause_segmentation_labels_bounded
    [⟨some [⟨0, 1, "a"⟩, ⟨5, 6, "b"⟩]⟩] 2 2 (by decide)⟩

theorem Heap.read_alloc_lt (h : Heap) (v : Segment) (a : Nat)
    (ha : a < h.cells.length) : (h.alloc v).1.read a = h.read a := by
  simp only [Heap.alloc, Heap.read]
  rw [List.getElem?_append_left ha]

theorem Heap.read_write_ne (h : Heap) (g : Nat) (v : Segment) (a : Nat)
    (hne : a ≠ g) : (h.write g v).read a = h.read a := by
  simp only [Heap.write, Heap.read]
  rw [List.getElem?_set_ne (Ne.symm hne)]

theorem Heap.length_write (h : Heap) (g : Nat) (v : Segment) :
    (h.write g v).cells.length = h.cells.length := by
  simp [Heap.write]

theorem groupLoopH_frame (addrs : List Nat) :
    ∀ (h : Heap) (cur : Option Nat) (acc : List Nat) (θ : ℚ) (a : Nat),
      a < h.cells.length → (∀ g, cur = some g → a < g) →
      (groupLoopH h cur addrs θ acc).1.read a = h.read a := by
  induction addrs with
  | nil =>
    intro h cur acc θ a ha hcur
    cases cur <;> rfl
  | cons s rest ih =>
    intro h cur acc θ a ha hcur
    cases cur with
    | none =>
      simp only [groupLoopH]
      refine (ih _ _ acc θ a ?_ ?_).trans (Heap.read_alloc_lt h _ a ha)
      · simp only [Heap.alloc, List.length_append, List.length_singleton]
        omega
      · intro g' hg'
        cases hg'
        simpa [Heap.alloc] using ha
    | some g =>
      simp only [groupLoopH]
      split
      · have hag : a ≠ g := Nat.ne_of_lt (hcur g rfl)
        refine (ih _ _ acc θ a ?_ ?_).trans (Heap.read_write_ne h g _ a hag)
        · rw [Heap.length_write]
          exact ha
        · intro g' hg'
          cases hg'
          exact hcur _ rfl
      · refine (ih _ _ (acc ++ [g]) θ a ?_ ?_).trans (Heap.read_alloc_lt h _ a ha)
        · simp only [Heap.alloc, List.length_append, List.length_singleton]
          omega
        · intro g' hg'
          cases hg'
          simpa [Heap.alloc] using ha

/-- Claim C9: the store-passing grouper never writes through any input
address: after it returns, every input segment dict still holds exactly the
value it held before the call (merged utterances are mutated only on the
fresh copies made by `segment.copy()`). -/
theorem grouper_never_mutates_input (h : Heap) (addrs : List Nat) (θ : ℚ)
    (hvalid : ∀ b ∈ addrs, b < h.cells.length) :
    ∀ b ∈ addrs,
      (group_segments_by_speaker_heap h addrs θ).1.read b = h.read b := by
  intro b hb
  exact groupLoopH_frame addrs h none [] θ b (hvalid b hb) (fun g hg => by cases hg)

/-- Witness for C9 on a two-dict heap whose segments merge. -/
theorem grouper_never_mutates_input_witness :
    (∀ b ∈ [0, 1],
      b < (Heap.mk [⟨0, 1, "hi", "A"⟩, ⟨1, 2, "there", "A"⟩]).cells.length) ∧
    (∀ b ∈ [0, 1],
      (group_segments_by_speaker_heap
        ⟨[⟨0, 1, "hi", "A"⟩, ⟨1, 2, "there", "A"⟩]⟩ [0, 1] 3).1.read b =
        (Heap.mk [⟨0, 1, "hi", "A"⟩, ⟨1, 2, "there", "A"⟩]).read b) :=
  ⟨by decide, grouper_never_mutates_input
    ⟨[⟨0, 1, "hi", "A"⟩, ⟨1, 2, "there", "A"⟩]⟩ [0, 1] 3 (by decide)⟩

theorem splitLoop_stop (fuel : Nat) (start T d : ℚ) (h : ¬ start < T) :
    splitLoop fuel start T d = [] := by
  cases fuel with
  | zero => rfl
  | succ n =>
    simp only [splitLoop]
    rw [if_neg h]

theorem splitLoop_spec (fuel : Nat) :
    ∀ start T d : ℚ, 0 < d → start < T →
      (⌈(T - start) / d⌉).toNat ≤ fuel →
      (splitLoop fuel start T d).length = (⌈(T - start) / d⌉).toNat ∧
      (splitLoop fuel start T d).head? = some (start, min (start + d) T) ∧
      List.Chain' (fun a b => a.2 = b.1) (splitLoop fuel start T d) ∧
      List.Pairwise (fun a b => a.2 ≤ b.1) (splitLoop fuel start T d) ∧
      (∀ c ∈ splitLoop fuel start T d,
        c.1 < c.2 ∧ c.2 - c.1 ≤ d ∧ start ≤ c.1) ∧
      (∀ t : ℚ, (∃ c ∈ splitLoop fuel start T d, c.1 ≤ t ∧ t ≤ c.2) ↔
        start ≤ t ∧ t ≤ T) := by
  induction fuel with
  | zero =>
    intro start T d hd hlt hfuel
    exfalso
    have h1 : 0 < (T - start) / d := div_pos (by linarith) hd
    have h2 : 0 < ⌈(T - start) / d⌉ := Int.ceil_pos.mpr h1
    omega
  | succ fuel ih =>
    intro start T d hd hlt hfuel
    have heq : splitLoop (fuel + 1) start T d =
        (start, min (start + d) T) ::
          splitLoop fuel (min (start + d) T) T d := by
      simp only [splitLoop]
      rw [if_pos hlt]
    rcases le_or_lt T (start + d) with hge | hless
    · have hmin : min (start + d) T = T := min_eq_right hge
      have hrec : splitLoop fuel T T d = []
        := splitLoop_stop fuel T T d (lt_irrefl T)
      have hceil : ⌈(T - start) / d⌉ = 1 := by
        have h1 : 0 < (T - start) / d := div_pos (by linarith) hd
        have h2 : (T - start) / d ≤ 1 := by
          rw [div_le_one hd]
          linarith
        have h3 : 0 < ⌈(T - start) / d⌉ := Int.ceil_pos.mpr h1
        have h4 : ⌈(T - start) / d⌉ ≤ 1 := by
          exact_mod_cast Int.ceil_le.mpr (by exact_mod_cast h2)
        omega
      rw [heq, hmin, hrec, hceil]
      refine ⟨by simp, rfl, by simp, by simp, ?_, ?_⟩
      · intro c hc
        rcases List.mem_singleton.mp hc with rfl
        exact ⟨hlt, by simp; linarith, by simp⟩
      · intro t
        simp only [List.mem_singleton]
        constructor
        · rintro ⟨c, rfl, hc1, hc2⟩
          exact ⟨hc1, hc2⟩
        · rintro ⟨ht1, ht2⟩
          exact ⟨(start, T), rfl, ht1, ht2⟩
    · have hmin : min (start + d) T = start + d := min_eq_left (le_of_lt hless)
      have hceq : (T - (start + d)) / d = (T - start) / d - 1 := by
        field_simp
        ring
      have hceil_sub : ⌈(T - (start + d)) / d⌉ = ⌈(T - start) / d⌉ - 1 := by
        rw [hceq, Int.ceil_sub_one]
      have hpos : 0 < ⌈(T - start) / d⌉ :=
        Int.ceil_pos.mpr (div_pos (by linarith) hd)
      have hpos2 : 0 < ⌈(T - (start + d)) / d⌉ :=
        Int.ceil_pos.mpr (div_pos (by linarith) hd)
      have hfuel2 : (⌈(T - (start + d)) / d⌉).toNat ≤ fuel := by omega
      obtain ⟨hlen, hhead, hchain, hpair, hall, hcov⟩ :=
        ih (start + d) T d hd hless hfuel2
      rw [heq, hmin]
      refine ⟨?_, rfl, ?_, ?_, ?_, ?_⟩
      · simp only [List.length_cons, hlen]
        omega
      · rw [List.chain'_cons']
        refine ⟨?_, hchain⟩
        intro y hy
        rw [hhead] at hy
        simp only [Option.mem_some_iff] at hy
        subst hy
        rfl
      · rw [List.pairwise_cons]
        refine ⟨?_, hpair⟩
        intro b hb
        simpa using (hall b hb).2.2
      · intro c hc
        rcases List.mem_cons.mp hc with rfl | hc2
        · exact ⟨by simp; linarith, by simp, by simp⟩
        · obtain ⟨h1, h2, h3⟩ := hall c hc2
          exact ⟨h1, h2, by linarith⟩
      · intro t
        constructor
        · rintro ⟨c, hc, hc1, hc2⟩
          rcases List.mem_cons.mp hc with rfl | hc3
          · simp only at hc1 hc2
            constructor <;> linarith
          · have hmem := (hcov t).mp ⟨c, hc3, hc1, hc2⟩
            constructor <;> linarith [hmem.1, hmem.2]
        · rintro ⟨ht1, ht2⟩
          by_cases hcase : t ≤ start + d
          · exact ⟨(start, start + d), List.mem_cons_self _ _,
              by simpa using ht1, by simpa using hcase⟩
          · obtain ⟨c, hc3, hc1, hc2⟩ := (hcov t).mpr ⟨by linarith, ht2⟩
            exact ⟨c, List.mem_cons_of_mem _ hc3, hc1, hc2⟩

/-- Claim C3: for positive total and chunk durations, the chunker's intervals
are contiguous (each start equals the previous end), non-overlapping, each of
length at most the chunk duration and with positive length, their union is
exactly the interval from 0 to the total duration, and their count is
exactly the ceiling of total divided by chunk duration; in particular a
total duration at most the chunk duration yields exactly one chunk. -/
theorem split_audio_chunks_cover (T d : ℚ) (hT : 0 < T) (hd : 0 < d) :
    (split_audio_into_chunks T d).length = (⌈T / d⌉).toNat ∧
    List.Chain' (fun a b => a.2 = b.1) (split_audio_into_chunks T d) ∧
    List.Pairwise (fun a b => a.2 ≤ b.1) (split_audio_into_chunks T d) ∧
    (∀ c ∈ split_audio_into_chunks T d, c.1 < c.2 ∧ c.2 - c.1 ≤ d) ∧
    (∀ t : ℚ, (∃ c ∈ split_audio_into_chunks T d, c.1 ≤ t ∧ t ≤ c.2) ↔
      0 ≤ t ∧ t ≤ T) ∧
    (T ≤ d → (split_audio_into_chunks T d).length = 1) := by
  have hsub : T - 0 = T := sub_zero T
  have hfuel : (⌈(T - 0) / d⌉).toNat ≤ (⌈T / d⌉).toNat + 1 := by
    rw [hsub]
    omega
  obtain ⟨hlen, hhead, hchain, hpair, hall, hcov⟩ :=
    splitLoop_spec ((⌈T / d⌉).toNat + 1) 0 T d hd hT hfuel
  rw [hsub] at hlen
  unfold split_audio_into_chunks
  refine ⟨hlen, hchain, hpair, ?_, ?_, ?_⟩
  · intro c hc
    exact ⟨(hall c hc).1, (hall c hc).2.1⟩
  · exact hcov
  · intro hTd
    rw [hlen]
    have h1 : 0 < T / d := div_pos hT hd
    have h2 : T / d ≤ 1 := by
      rw [div_le_one hd]
      linarith
    have h3 : 0 < ⌈T / d⌉ := Int.ceil_pos.mpr h1
    have h4 : ⌈T / d⌉ ≤ 1 := by
      exact_mod_cast Int.ceil_le.mpr (by exact_mod_cast h2)
    omega

/-- Witness for C3 at a 70-second file with 30-second chunks. -/
theorem split_audio_chunks_cover_witness :
    0 < (70 : ℚ) ∧ 0 < (30 : ℚ) ∧
    ((split_audio_into_chunks 70 30).length = (⌈(70 : ℚ) / 30⌉).toNat ∧
     List.Chain' (fun a b => a.2 = b.1) (split_audio_into_chunks 70 30) ∧
     List.Pairwise (fun a b => a.2 ≤ b.1) (split_audio_into_chunks 70 30) ∧
     (∀ c ∈ split_audio_into_chunks 70 30, c.1 < c.2 ∧ c.2 - c.1 ≤ 30) ∧
     (∀ t : ℚ, (∃ c ∈ split_audio_into_chunks 70 30, c.1 ≤ t ∧ t ≤ c.2) ↔
       0 ≤ t ∧ t ≤ 70) ∧
     ((70 : ℚ) ≤ 30 → (split_audio_into_chunks 70 30).length = 1)) :=
  ⟨by norm_num, by norm_num,
    split_audio_chunks_cover 70 30 (by norm_num) (by norm_num)⟩

theorem Heap.read_alloc_self (h : Heap) (v : Segment) :
    (h.alloc v).1.read (h.alloc v).2 = v := by
  simp [Heap.alloc, Heap.read, List.getElem?_concat_length]

theorem Heap.read_write_self (h : Heap) (g : Nat) (v : Segment)
    (hg : g < h.cells.length) : (h.write g v).read g = v := by
  simp [Heap.write, Heap.read, List.getElem?_set_self hg]

theorem groupLoopH_refines (addrs : List Nat) :
    ∀ (h : Heap) (cur : Option Nat) (acc : List Nat) (θ : ℚ),
      (∀ b ∈ addrs, b < h.cells.length) →
      (∀ a ∈ acc, a < h.cells.length) →
      (∀ g, cur = some g → g < h.cells.length ∧
        (∀ b ∈ addrs, b < g) ∧ (∀ a ∈ acc, a < g)) →
      ((groupLoopH h cur addrs θ acc).2).map
          ((groupLoopH h cur addrs θ acc).1.read) =
        acc.map h.read ++ groupLoop (cur.map h.read) (addrs.map h.read) θ := by
  induction addrs with
  | nil =>
    intro h cur acc θ hin hacc hcur
    cases cur with
    | none => simp [groupLoopH, groupLoop]
    | some g => simp [groupLoopH, groupLoop]
  | cons s rest ih =>
    intro h cur acc θ hin hacc hcur
    have hs : s < h.cells.length := hin s (List.mem_cons_self s rest)
    cases cur with
    | none =>
      simp only [groupLoopH]
      have hlen1 : ((h.alloc (h.read s)).1).cells.length = h.cells.length + 1 := by
        simp [Heap.alloc]
      rw [ih _ _ acc θ ?_ ?_ ?_]
      · simp only [Option.map_some']
        rw [Heap.read_alloc_self h (h.read s)]
        have hmacc : acc.map ((h.alloc (h.read s)).1).read = acc.map h.read :=
          List.map_congr_left fun a ha =>
            Heap.read_alloc_lt h _ a (hacc a ha)
        have hmrest : rest.map ((h.alloc (h.read s)).1).read = rest.map h.read :=
          List.map_congr_left fun b hb =>
            Heap.read_alloc_lt h _ b (hin b (List.mem_cons_of_mem s hb))
        rw [hmacc, hmrest]
        simp [groupLoop]
      · intro b hb
        rw [hlen1]
        exact Nat.lt_succ_of_lt (hin b (List.mem_cons_of_mem s hb))
      · intro a ha
        rw [hlen1]
        exact Nat.lt_succ_of_lt (hacc a ha)
      · intro g hg
        cases hg
        refine ⟨by rw [hlen1]; simp [Heap.alloc], ?_, ?_⟩
        · intro b hb
          simpa [Heap.alloc] using hin b (List.mem_cons_of_mem s hb)
        · intro a ha
          simpa [Heap.alloc] using hacc a ha
    | some g =>
      obtain ⟨hg, hbg, hag⟩ := hcur g rfl
      have hsg : s < g := hbg s (List.mem_cons_self s rest)
      simp only [groupLoopH]
      split
      · -- merge branch: write through the open group's address only
        rename_i hcond
        rw [ih _ _ acc θ ?_ ?_ ?_]
        · have hmacc : acc.map ((h.write g ⟨(h.read g).start, (h.read s).stop,
              (h.read g).text ++ " " ++ (h.read s).text,
              (h.read g).speaker⟩).read) = acc.map h.read :=
            List.map_congr_left fun a ha =>
              Heap.read_write_ne h g _ a (Nat.ne_of_lt (hag a ha))
          have hmrest : rest.map ((h.write g ⟨(h.read g).start, (h.read s).stop,
              (h.read g).text ++ " " ++ (h.read s).text,
              (h.read g).speaker⟩).read) = rest.map h.read :=
            List.map_congr_left fun b hb =>
              Heap.read_write_ne h g _ b
                (Nat.ne_of_lt (hbg b (List.mem_cons_of_mem s hb)))
          rw [hmacc, hmrest]
          simp only [Option.map_some', List.map_cons]
          rw [Heap.read_write_self h g _ hg]
          rw [groupLoop]
          rw [if_pos hcond]
        · intro b hb
          rw [Heap.length_write]
          exact hin b (List.mem_cons_of_mem s hb)
        · intro a ha
          rw [Heap.length_write]
          exact hacc a ha
        · intro g' hg'
          cases hg'
          rw [Heap.length_write]
          exact ⟨hg, fun b hb => hbg b (List.mem_cons_of_mem s hb), hag⟩
      · -- new-group branch: emit the open group, copy the next segment
        rename_i hcond
        have hlen1 : ((h.alloc (h.read s)).1).cells.length = h.cells.length + 1 := by
          simp [Heap.alloc]
        rw [ih _ _ (acc ++ [g]) θ ?_ ?_ ?_]
        · simp only [Option.map_some']
          rw [Heap.read_alloc_self h (h.read s)]
          have hmacc : (acc ++ [g]).map ((h.alloc (h.read s)).1).read =
              (acc ++ [g]).map h.read := by
            refine List.map_congr_left fun a ha => ?_
            rcases List.mem_append.mp ha with ha' | ha'
            · exact Heap.read_alloc_lt h _ a (hacc a ha')
            · rcases List.mem_singleton.mp ha' with rfl
              exact Heap.read_alloc_lt h _ a hg
          have hmrest : rest.map ((h.alloc (h.read s)).1).read = rest.map h.read :=
            List.map_congr_left fun b hb =>
              Heap.read_alloc_lt h _ b (hin b (List.mem_cons_of_mem s hb))
          rw [hmacc, hmrest]
          simp only [Option.map_some', List.map_cons, List.map_append,
            List.map_nil]
          rw [groupLoop]
          rw [if_neg hcond]
          simp
        · intro b hb
          rw [hlen1]
          exact Nat.lt_succ_of_lt (hin b (List.mem_cons_of_mem s hb))
        · intro a ha
          rw [hlen1]
          rcases List.mem_append.mp ha with ha' | ha'
          · exact Nat.lt_succ_of_lt (hacc a ha')
          · rcases List.mem_singleton.mp ha' with rfl
            exact Nat.lt_succ_of_lt hg
        · intro g' hg'
          cases hg'
          refine ⟨by rw [hlen1]; simp [Heap.alloc], ?_, ?_⟩
          · intro b hb
            simpa [Heap.alloc] using hin b (List.mem_cons_of_mem s hb)
          · intro a ha
            rcases List.mem_append.mp ha with ha' | ha'
            · simpa [Heap.alloc] using hacc a ha'
            · rcases List.mem_singleton.mp ha' with rfl
              simpa [Heap.alloc] using hg

/-- Consistency of the two embeddings of the grouper: the utterance dicts
returned by the store-passing grouper hold, in order, exactly the utterances
computed by the pure grouper on the input values. -/
theorem group_heap_refines_pure (h : Heap) (addrs : List Nat) (θ : ℚ)
    (hvalid : ∀ b ∈ addrs, b < h.cells.length) :
    ((group_segments_by_speaker_heap h addrs θ).2).map
        ((group_segments_by_speaker_heap h addrs θ).1.read) =
      group_segments_by_speaker (addrs.map h.read) θ := by
  have := groupLoopH_refines addrs h none [] θ hvalid
    (by intro a ha; cases ha) (by intro g hg; cases hg)
  simpa [group_segments_by_speaker_heap, group_segments_by_speaker] using this

end Transcriptor
